import Mathlib

/-!
# Mantecabox: credential validation, registration and the encrypted file store

A shallow embedding of

* `services/userService.go`: `validateCredentials`, `RegisterUser` and the two
  regular expressions compiled in `init`;
* `services/fileService.go`: `SaveFile`, `GetDecryptedLocalFile`, `DeleteFile`,
  `createDirIfNotExist` and the constant `userReadablePerms`.

Go values are modelled as follows.

* A Go `string` is a Lean `String`.  Credentials arrive through JSON binding, so
  they are valid UTF-8; a Go string that is not valid UTF-8 has no counterpart here.
* A Go `[]byte` is a `List Byte` with `Byte = Fin 256`; the nil slice and the empty
  slice are both `[]`.
* A Go `error` is an `Option Error`, `none` being `nil`.
* A method that a panicking collaborator can cut short ends in an `Outcome`: it returns
  a value or it panics.
* Library calls the services make (`encoding/base64`, `regexp`, `unicode/utf8`,
  `os`, `io/ioutil`) are modelled after the documented behaviour of those packages.
* Collaborators whose code is outside this development (bcrypt, the AES cipher, the
  DAOs, the directory tree) are parameters acting on an external state `σ`.
-/

namespace Mantecabox

/-! ## Bytes and errors -/

/-- A Go `byte`. -/
abbrev Byte := Fin 256

/-- Conversion `byte(n)` of an unsigned integer: the low eight bits. -/
def toByte (n : Nat) : Byte := ⟨n % 256, Nat.mod_lt n (by decide)⟩

/-- The bytes of an ASCII text; a character beyond one byte is cut to its low eight bits
(only used on ASCII literals). -/
def asciiBytes (s : String) : List Byte := s.toList.map (fun c => toByte c.toNat)

/-- Go `error` values met in the two services. -/
inductive Error where
  /-- Result of `errors.New(text)`. -/
  | New (text : String)
  /-- A `base64.CorruptInputError`; the byte offset it carries is not modelled. -/
  | CorruptInputError
  /-- An `*os.PathError` with errno `ENOENT` raised by operation `op` on `path`. -/
  | PathError (op path : String)
  /-- An `*os.PathError` with errno `EINVAL` raised by operation `op` on `path`: the path
  holds a NUL byte. -/
  | InvalidArgument (op path : String)
  /-- An error produced by a collaborator (bcrypt, a DAO, the directory tree, a reader). -/
  | External (code : Nat)
deriving DecidableEq, Repr

deriving instance DecidableEq for Except

/-! ## `encoding/base64`: `base64.URLEncoding` -/

namespace base64

/-- The alphabet `encodeURL` of `base64.URLEncoding`. -/
def encodeURL : List Char :=
  "ABCDEFGHIJKLMNOPQRSTUVWXYZabcdefghijklmnopqrstuvwxyz0123456789-_".toList

/-- The padding character `StdPadding`. -/
def padChar : Char := '='

/-- Table lookup `enc.encode[v]`. -/
def encode (v : Nat) : Char := encodeURL.getD v 'A'

/-- Table lookup `enc.decodeMap[c]`; `none` stands for the entry `0xFF` of a character
outside the alphabet. -/
def decodeMap (c : Char) : Option Nat :=
  let i := encodeURL.indexOf c
  if i < 64 then some i else none

/-- `Encoding.Encode`: three bytes become four characters; a final group of one or two
bytes is padded with `=`. -/
def encodeBytes : List Byte → List Char
  | [] => []
  | [a] =>
    let val := a.val * 65536
    [encode (val / 262144 % 64), encode (val / 4096 % 64), padChar, padChar]
  | [a, b] =>
    let val := a.val * 65536 + b.val * 256
    [encode (val / 262144 % 64), encode (val / 4096 % 64), encode (val / 64 % 64), padChar]
  | a :: b :: c :: rest =>
    let val := a.val * 65536 + b.val * 256 + c.val
    encode (val / 262144 % 64) :: encode (val / 4096 % 64) :: encode (val / 64 % 64)
      :: encode (val % 64) :: encodeBytes rest

/-- `Encoding.EncodeToString`. -/
def EncodeToString (src : List Byte) : String := String.mk (encodeBytes src)

/-- The quantum loop of `Encoding.Decode` (`decodeQuantum`, not strict, padded) on an
input from which line breaks have been removed.  Four alphabet characters give three
bytes; the last quantum may be `xx==` (one byte) or `xxx=` (two bytes) and must end the
input; anything else is corrupt. -/
def decodeQuanta : List Char → Except Error (List Byte)
  | [] => .ok []
  | c0 :: c1 :: c2 :: c3 :: rest =>
    match decodeMap c0, decodeMap c1 with
    | some v0, some v1 =>
      if c2 = padChar then
        if c3 = padChar ∧ rest = [] then
          let val := v0 * 262144 + v1 * 4096
          .ok [toByte (val / 65536)]
        else .error Error.CorruptInputError
      else
        match decodeMap c2 with
        | none => .error Error.CorruptInputError
        | some v2 =>
          if c3 = padChar then
            if rest = [] then
              let val := v0 * 262144 + v1 * 4096 + v2 * 64
              .ok [toByte (val / 65536), toByte (val / 256)]
            else .error Error.CorruptInputError
          else
            match decodeMap c3 with
            | none => .error Error.CorruptInputError
            | some v3 =>
              let val := v0 * 262144 + v1 * 4096 + v2 * 64 + v3
              match decodeQuanta rest with
              | .ok bs => .ok (toByte (val / 65536) :: toByte (val / 256) :: toByte val :: bs)
              | .error e => .error e
    | _, _ => .error Error.CorruptInputError
  | _ => .error Error.CorruptInputError

/-- Line breaks are skipped by the decoder wherever they stand. -/
def isLineBreak (c : Char) : Bool := c == '\n' || c == '\r'

/-- `Encoding.DecodeString`.  On failure Go also returns the bytes decoded so far; both
callers drop them. -/
def DecodeString (s : String) : Except Error (List Byte) :=
  decodeQuanta (s.toList.filter (fun c => !isLineBreak c))

end base64


/-! ## `unicode/utf8` -/

namespace utf8

/-- The replacement rune `utf8.RuneError` (U+FFFD). -/
def RuneError : Nat := 0xFFFD

/-- The table `first` joined with `acceptRanges`: for a leading byte that opens a
sequence of several bytes, the length of the sequence and the bounds the second byte must
keep; `none` for an ASCII byte and for a byte that cannot lead. -/
def first (p0 : Nat) : Option (Nat × Nat × Nat) :=
  if 0xC2 ≤ p0 ∧ p0 ≤ 0xDF then some (2, 0x80, 0xBF)
  else if p0 = 0xE0 then some (3, 0xA0, 0xBF)
  else if 0xE1 ≤ p0 ∧ p0 ≤ 0xEC then some (3, 0x80, 0xBF)
  else if p0 = 0xED then some (3, 0x80, 0x9F)
  else if 0xEE ≤ p0 ∧ p0 ≤ 0xEF then some (3, 0x80, 0xBF)
  else if p0 = 0xF0 then some (4, 0x90, 0xBF)
  else if 0xF1 ≤ p0 ∧ p0 ≤ 0xF3 then some (4, 0x80, 0xBF)
  else if p0 = 0xF4 then some (4, 0x80, 0x8F)
  else none

/-- A continuation byte lies between `locb` and `hicb`. -/
def isCont (b : Nat) : Bool := 0x80 ≤ b && b ≤ 0xBF

/-- `utf8.DecodeRune` on a non-empty slice `p0 :: p`: the rune and its width in bytes.
An ill-formed or cut sequence gives `(RuneError, 1)`. -/
def DecodeRune (p0 : Byte) (p : List Byte) : Nat × Nat :=
  if p0.val < 0x80 then (p0.val, 1)
  else
    match first p0.val with
    | none => (RuneError, 1)
    | some (sz, lo, hi) =>
      match p with
      | [] => (RuneError, 1)
      | b1 :: p1 =>
        if b1.val < lo ∨ hi < b1.val then (RuneError, 1)
        else if sz ≤ 2 then ((p0.val % 32) * 64 + b1.val % 64, 2)
        else
          match p1 with
          | [] => (RuneError, 1)
          | b2 :: p2 =>
            if !isCont b2.val then (RuneError, 1)
            else if sz ≤ 3 then ((p0.val % 16) * 4096 + (b1.val % 64) * 64 + b2.val % 64, 3)
            else
              match p2 with
              | [] => (RuneError, 1)
              | b3 :: _ =>
                if !isCont b3.val then (RuneError, 1)
                else ((p0.val % 8) * 262144 + (b1.val % 64) * 4096 + (b2.val % 64) * 64
                        + b3.val % 64, 4)

/-- The runes a matcher steps through on a byte slice: `DecodeRune` at the current
offset, then on by the width.  `fuel` bounds the number of runes; the length of the slice
always suffices since every width is at least one. -/
def runesFuel : Nat → List Byte → List Nat
  | 0, _ => []
  | _, [] => []
  | fuel + 1, p0 :: p =>
    let d := DecodeRune p0 p
    d.1 :: runesFuel fuel (p.drop (d.2 - 1))

/-- The runes of a byte slice. -/
def runes (p : List Byte) : List Nat := runesFuel p.length p

end utf8

/-! ## `regexp` -/

namespace regexp

/-- Parsed regular expressions (`regexp/syntax.Regexp`), restricted to the operators that
occur in this program.  `foldCase` records the flag `(?i)` in force where the literal or
class was parsed. -/
inductive Regexp where
  /-- `OpLiteral`: one rune. -/
  | Literal (foldCase : Bool) (r : Nat)
  /-- `OpCharClass`: a union of inclusive rune ranges. -/
  | CharClass (foldCase : Bool) (ranges : List (Nat × Nat))
  /-- `OpBeginText`: `^` without the flag `m`. -/
  | BeginText
  /-- `OpEndText`: `$` without the flag `m`. -/
  | EndText
  /-- `OpCapture`: a parenthesised group; grouping does not change what matches. -/
  | Capture (sub : Regexp)
  /-- `OpConcat`. -/
  | Concat (a b : Regexp)
  /-- `OpAlternate`. -/
  | Alternate (a b : Regexp)
  /-- `OpRepeat`: `sub{min,max}`. -/
  | Repeat (min max : Nat) (sub : Regexp)

/-- The other runes of the orbit of `r` under `unicode.SimpleFold`, for the orbits that
contain an ASCII rune (every literal and class of this program is ASCII): a letter and its
other case, with U+212A KELVIN SIGN in the orbit of `k` and U+017F LATIN SMALL LETTER
LONG S in the orbit of `s`. -/
def foldOrbit (r : Nat) : List Nat :=
  if 0x41 ≤ r ∧ r ≤ 0x5A then
    (r + 32) :: (if r = 0x4B then [0x212A] else if r = 0x53 then [0x17F] else [])
  else if 0x61 ≤ r ∧ r ≤ 0x7A then
    (r - 32) :: (if r = 0x6B then [0x212A] else if r = 0x73 then [0x17F] else [])
  else if r = 0x212A then [0x4B, 0x6B]
  else if r = 0x17F then [0x53, 0x73]
  else []

/-- Membership of a rune in a union of ranges. -/
def inRanges (ranges : List (Nat × Nat)) (r : Nat) : Bool :=
  ranges.any (fun lohi => lohi.1 ≤ r && r ≤ lohi.2)

/-- A rune matches a class when it lies in one of its ranges or, under `(?i)`, when a rune
of its fold orbit does. -/
def matchClass (foldCase : Bool) (ranges : List (Nat × Nat)) (r : Nat) : Bool :=
  inRanges ranges r || (foldCase && (foldOrbit r).any (inRanges ranges))

/-- A rune matches a literal when it is that rune or, under `(?i)`, one of its orbit. -/
def matchLiteral (foldCase : Bool) (lit : Nat) (r : Nat) : Bool :=
  r == lit || (foldCase && (foldOrbit r).contains lit)

/-- A place in the input: the number of runes before it and the runes from it on. -/
structure Pos where
  index : Nat
  rest : List Nat
deriving DecidableEq, Repr

/-- Between `lo` and `hi` rounds of `f`, each starting where the last one ended. -/
def iterate (f : Pos → List Pos) : Nat → Nat → Pos → List Pos
  | lo, 0, p => if lo = 0 then [p] else []
  | lo, hi + 1, p =>
    (if lo = 0 then [p] else []) ++ (f p).flatMap (iterate f (lo - 1) hi)

/-- Every place where a match of the expression that starts at `p` can end. -/
def ends : Regexp → Pos → List Pos
  | .Literal fc lit, p =>
    match p.rest with
    | [] => []
    | r :: rest => if matchLiteral fc lit r then [⟨p.index + 1, rest⟩] else []
  | .CharClass fc ranges, p =>
    match p.rest with
    | [] => []
    | r :: rest => if matchClass fc ranges r then [⟨p.index + 1, rest⟩] else []
  | .BeginText, p => if p.index = 0 then [p] else []
  | .EndText, p => if p.rest = [] then [p] else []
  | .Capture sub, p => ends sub p
  | .Concat a b, p => (ends a p).flatMap (ends b)
  | .Alternate a b, p => ends a p ++ ends b p
  | .Repeat min max sub, p => iterate (ends sub) min max p

/-- Every place of the input, the first one at index `i`. -/
def places : Nat → List Nat → List Pos
  | i, [] => [⟨i, []⟩]
  | i, r :: rest => ⟨i, r :: rest⟩ :: places (i + 1) rest

/-- The expression matches somewhere in the rune sequence (the search is not anchored;
the expression anchors itself with `^` and `$`). -/
def matchRunes (re : Regexp) (input : List Nat) : Bool :=
  (places 0 input).any (fun p => !(ends re p).isEmpty)

/-- `Regexp.MatchString`. -/
def MatchString (re : Regexp) (s : String) : Bool :=
  matchRunes re (s.toList.map Char.toNat)

/-- `Regexp.Match` on a byte slice. -/
def Match (re : Regexp) (b : List Byte) : Bool :=
  matchRunes re (utf8.runes b)

end regexp

/-! ## `services/userService.go` -/

/-- The message `InvalidUsernameError`. -/
def InvalidUsernameError : String :=
  "invalid username (must be a valid nickname -all lowercases- with a length between 8 and 20 characters)"

/-- The message `InvalidPasswordError`. -/
def InvalidPasswordError : String := "password input is not SHA-512 hashed"

/-- The class `[A-Fa-f0-9]`. -/
def hexClass : regexp.Regexp :=
  .CharClass false [(0x41, 0x46), (0x61, 0x66), (0x30, 0x39)]

/-- The expression `sha512Regex`, compiled in `init` from `^[A-Fa-f0-9]{128}$`. -/
def sha512Regex : regexp.Regexp :=
  .Concat .BeginText (.Concat (.Repeat 128 128 hexClass) .EndText)

/-- The class `[a-z\d]` under `(?i)`. -/
def nickClass : regexp.Regexp :=
  .CharClass true [(0x61, 0x7A), (0x30, 0x39)]

/-- The expression `usernameRegex`, compiled in `init` from
`(?i)^[a-z\d](?:[a-z\d]|_([a-z\d])){6,20}$`. -/
def usernameRegex : regexp.Regexp :=
  .Concat .BeginText
    (.Concat nickClass
      (.Concat
        (.Repeat 6 20
          (.Alternate nickClass (.Concat (.Literal true 0x5F) (.Capture nickClass))))
        .EndText))

/-- The type `models.Credentials`. -/
structure Credentials where
  Username : String
  Password : String
deriving DecidableEq, Repr

/-- The function `validateCredentials`. -/
def validateCredentials (c : Credentials) : Option Error :=
  match base64.DecodeString c.Password with
  | .error err => some err
  | .ok decodedPassword =>
    if !regexp.MatchString usernameRegex c.Username then
      some (Error.New InvalidUsernameError)
    else if !regexp.Match sha512Regex decodedPassword then
      some (Error.New InvalidPasswordError)
    else
      none

/-- The type `models.User`.  Its fields other than `Credentials` are never written by
`RegisterUser` and are left out. -/
structure User where
  Credentials : Credentials
deriving DecidableEq, Repr

/-- The zero value of `models.User`, as declared by `var user models.User`. -/
def User.zero : User := ⟨⟨"", ""⟩⟩

namespace bcrypt

/-- The constant `bcrypt.DefaultCost`. -/
def DefaultCost : Int := 10

end bcrypt

/-- A call from `RegisterUser` to one of its collaborators, with the arguments passed. -/
inductive Call where
  /-- The call `bcrypt.GenerateFromPassword(password, cost)`. -/
  | GenerateFromPassword (password : List Byte) (cost : Int)
  /-- The call `aes.Encrypt(plaintext)`. -/
  | Encrypt (plaintext : List Byte)
  /-- The call `userDao.Create(&user)`. -/
  | Create (user : User)
deriving DecidableEq, Repr

/-- The collaborators of `RegisterUser`.  Each acts on an external state `σ` (the salt
and nonce source, the database), so that results may differ from call to call. -/
structure UserCollaborators (σ : Type) where
  /-- The function `bcrypt.GenerateFromPassword`. -/
  GenerateFromPassword : List Byte → Int → σ → Except Error (List Byte) × σ
  /-- The function `aes.Encrypt`. -/
  Encrypt : List Byte → σ → List Byte × σ
  /-- The method `userDao.Create`. -/
  Create : User → σ → (User × Option Error) × σ

/-- What `RegisterUser` runs in: the calls made so far, oldest first, and the external
state. -/
structure World (σ : Type) where
  calls : List Call
  state : σ

/-- Records a call and installs the state it leaves. -/
def World.record {σ : Type} (w : World σ) (call : Call) (s : σ) : World σ :=
  ⟨w.calls ++ [call], s⟩

/-- The function `RegisterUser`. -/
def RegisterUser {σ : Type} (k : UserCollaborators σ) (c : Credentials) (w : World σ) :
    (User × Option Error) × World σ :=
  let user := User.zero
  match validateCredentials c with
  | some err => ((user, some err), w)
  | none =>
    match base64.DecodeString c.Password with
    | .error err => ((user, some err), w)
    | .ok decodedPassword =>
      let r1 := k.GenerateFromPassword decodedPassword bcrypt.DefaultCost w.state
      let w1 := w.record (.GenerateFromPassword decodedPassword bcrypt.DefaultCost) r1.2
      match r1.1 with
      | .error err => ((user, some err), w1)
      | .ok bcryptedPassword =>
        let r2 := k.Encrypt bcryptedPassword w1.state
        let w2 := w1.record (.Encrypt bcryptedPassword) r2.2
        let user : User :=
          { user with
            Credentials :=
              { Username := c.Username
                Password := base64.EncodeToString r2.1 } }
        let r3 := k.Create user w2.state
        (r3.1, w2.record (.Create user) r3.2)

/-! ## `services/fileService.go` -/

/-- The constant `userReadablePerms`. -/
def userReadablePerms : Nat := 0o600

/-- The disk: the bytes stored at each path, `none` where no file exists. -/
abbrev Disk := String → Option (List Byte)

/-- The disk with `data` stored at `path`. -/
def Disk.store (d : Disk) (path : String) (data : List Byte) : Disk :=
  fun p => if p = path then some data else d p

/-- The disk without the file at `path`. -/
def Disk.erase (d : Disk) (path : String) : Disk :=
  fun p => if p = path then none else d p

/-- A request made to the operating system that changes the file tree. -/
inductive OsCall where
  /-- The call `os.MkdirAll(path, perm)`. -/
  | MkdirAll (path : String) (perm : Nat)
  /-- The call `ioutil.WriteFile(path, data, perm)`. -/
  | WriteFile (path : String) (data : List Byte) (perm : Nat)
  /-- The call `os.Remove(path)`. -/
  | Remove (path : String)
deriving DecidableEq, Repr

/-- What the file service runs in: the disk, the requests made to the operating system
so far (oldest first) and the external state (metadata store, nonce source, directory
tree).  `refused` gives, for a path the operating system will not create or truncate a
file at (a directory stands there, the parent directory is missing or may not be searched
or written), the error it answers with. -/
structure FsWorld (σ : Type) where
  disk : Disk
  requests : List OsCall
  state : σ
  refused : String → Option Error

/-- Whether a path holds a NUL byte; every system call on such a path fails with `EINVAL`
before the file tree is looked at. -/
def hasNUL (path : String) : Bool := path.toList.any (fun c => c.toNat == 0)

/-- How a call of the service ends: it returns a value, or it panics and returns
nothing. -/
inductive Outcome (α : Type) where
  /-- The call returns `a`. -/
  | returned (a : α)
  /-- The call panics. -/
  | panicked
deriving DecidableEq, Repr

namespace ioutil

/-- `ioutil.ReadFile` on the disk: the bytes at `path`; a path error where no file
exists; `EINVAL` for a path with a NUL byte. -/
def ReadFile {σ : Type} (w : FsWorld σ) (path : String) : Except Error (List Byte) :=
  if hasNUL path then .error (Error.InvalidArgument "open" path)
  else
    match w.disk path with
    | some data => .ok data
    | none => .error (Error.PathError "open" path)

/-- `ioutil.WriteFile` on the disk.  Opening the file fails with `EINVAL` for a path with a
NUL byte and with the error of `refused` where the operating system refuses the path; the
disk is then unchanged.  Otherwise the file at `path` is created or truncated and holds
`data`.  A write that fails after the file was opened (a full disk) is not modelled; the
mode only reaches the request log. -/
def WriteFile {σ : Type} (w : FsWorld σ) (path : String) (data : List Byte) (perm : Nat) :
    Option Error × FsWorld σ :=
  let w1 := { w with requests := w.requests ++ [.WriteFile path data perm] }
  if hasNUL path then (some (Error.InvalidArgument "open" path), w1)
  else
    match w.refused path with
    | some err => (some err, w1)
    | none => (none, { w1 with disk := w.disk.store path data })

end ioutil

namespace os

/-- `os.Remove` on the disk: removes the file at `path`, or fails with a path error
where no file exists. -/
def Remove {σ : Type} (w : FsWorld σ) (path : String) : Option Error × FsWorld σ :=
  let w1 := { w with requests := w.requests ++ [.Remove path] }
  match w.disk path with
  | some _ => (none, { w1 with disk := w.disk.erase path })
  | none => (some (Error.PathError "remove" path), w1)

end os

/-- The type `models.Configuration`, as far as the file service reads it. -/
structure Configuration where
  FilesPath : String

/-- The interface `interfaces.FileDao`, as far as `DeleteFile` uses it. -/
structure FileDao (σ : Type) where
  /-- The method `fileDao.Delete`. -/
  Delete : Int → σ → Option Error × σ

/-- The interface `utilities.AesCTRCipher`.  Both methods return bytes only, no error;
`Encrypt` may draw a nonce from the external state.  `Decrypt` gives `none` on a
ciphertext it fails on: having no error result, it can then only panic. -/
structure AesCTRCipher (σ : Type) where
  /-- The method `aesCipher.Encrypt`. -/
  Encrypt : List Byte → σ → List Byte × σ
  /-- The method `aesCipher.Decrypt`; `none` where it panics. -/
  Decrypt : List Byte → Option (List Byte)

/-- The type `models.File`, as far as the file service reads it.  The declaration is
outside these sources, so the type `ι` of `Id` is a parameter. -/
structure File (ι : Type) where
  Id : ι
  Name : String

/-- The struct `FileServiceImpl`, together with two things the code takes from its
surroundings: the conversion `string(file.Id)` and the function `os.MkdirAll`, which acts
on the directory tree kept in the external state. -/
structure FileServiceImpl (σ ι : Type) where
  configuration : Configuration
  fileDao : FileDao σ
  aesCipher : AesCTRCipher σ
  /-- The conversion `string(·)` at the type of `models.File.Id`. -/
  string : ι → String
  /-- The function `os.MkdirAll`. -/
  MkdirAll : String → Nat → σ → Option Error × σ

/-- The method `FileServiceImpl.DeleteFile`. -/
def FileServiceImpl.DeleteFile {σ ι : Type} (fileService : FileServiceImpl σ ι)
    (file : Int) (fileID : String) (w : FsWorld σ) : Option Error × FsWorld σ :=
  let r := fileService.fileDao.Delete file w.state
  let w1 := { w with state := r.2 }
  match r.1 with
  | some err => (some err, w1)
  | none =>
    let r2 := os.Remove w1 (fileService.configuration.FilesPath ++ fileID)
    match r2.1 with
    | some err => (some err, r2.2)
    | none => (none, r2.2)

/-- The method `FileServiceImpl.SaveFile`.  The argument `file` is what copying the
upload to its end gives: its bytes, or the error of `io.Copy`. -/
def FileServiceImpl.SaveFile {σ ι : Type} (fileService : FileServiceImpl σ ι)
    (file : Except Error (List Byte)) (uploadedFile : File ι) (w : FsWorld σ) :
    Option Error × FsWorld σ :=
  match file with
  | .error err => (some err, w)
  | .ok buf =>
    let r := fileService.aesCipher.Encrypt buf w.state
    let encrypted := r.1
    let w1 := { w with state := r.2 }
    let r2 := ioutil.WriteFile w1
      (fileService.configuration.FilesPath ++ fileService.string uploadedFile.Id)
      encrypted userReadablePerms
    match r2.1 with
    | some err => (some err, r2.2)
    | none => (none, r2.2)

/-- The method `FileServiceImpl.GetDecryptedLocalFile`.  The error returned beside the
decrypted bytes is the variable `err` of the read, which is nil on that line; a panic of
`Decrypt` is not recovered and ends the call. -/
def FileServiceImpl.GetDecryptedLocalFile {σ ι : Type} (fileService : FileServiceImpl σ ι)
    (file : File ι) (w : FsWorld σ) : Outcome (List Byte × Option Error) :=
  match ioutil.ReadFile w
      (fileService.configuration.FilesPath ++ fileService.string file.Id) with
  | .error err => .returned ([], some err)
  | .ok fileEncrypt =>
    let err : Option Error := none
    match fileService.aesCipher.Decrypt fileEncrypt with
    | none => .panicked
    | some decrypted => .returned (decrypted, err)

/-- The method `FileServiceImpl.createDirIfNotExist`.  The first component is the value
the method panics with, `none` when it returns. -/
def FileServiceImpl.createDirIfNotExist {σ ι : Type} (fileService : FileServiceImpl σ ι)
    (w : FsWorld σ) : Option Error × FsWorld σ :=
  let r := fileService.MkdirAll fileService.configuration.FilesPath userReadablePerms w.state
  let w1 := { w with requests := w.requests ++
                [.MkdirAll fileService.configuration.FilesPath userReadablePerms]
                     state := r.2 }
  match r.1 with
  | some err => (some err, w1)
  | none => (none, w1)

/-! ## Permission bits -/

/-- The three permission bits (read 4, write 2, execute 1) a mode grants the owner. -/
def ownerBits (perm : Nat) : Nat := perm / 64 % 8

/-- The three permission bits a mode grants the group. -/
def groupBits (perm : Nat) : Nat := perm / 8 % 8

/-- The three permission bits a mode grants everyone else. -/
def otherBits (perm : Nat) : Nat := perm % 8

/-- Whether a triple of permission bits includes execute (search, for a directory). -/
def canExecute (bits : Nat) : Bool := bits % 2 == 1

/-- Whether a triple of permission bits includes write. -/
def canWrite (bits : Nat) : Bool := bits / 2 % 2 == 1

/-- Whether a triple of permission bits includes read. -/
def canRead (bits : Nat) : Bool := bits / 4 % 2 == 1

/-! ## Vocabulary of the properties -/

/-- An ASCII hexadecimal digit, upper or lower case. -/
def isHexDigit (b : Nat) : Bool :=
  (0x30 ≤ b && b ≤ 0x39) || (0x41 ≤ b && b ≤ 0x46) || (0x61 ≤ b && b ≤ 0x66)

/-- A text of exactly 128 hexadecimal digits: the hexadecimal form of a SHA-512 digest. -/
def isSha512Hex (d : List Byte) : Prop :=
  d.length = 128 ∧ ∀ b ∈ d, isHexDigit b.val = true

instance (d : List Byte) : Decidable (isSha512Hex d) := by
  unfold isSha512Hex
  exact inferInstance

/-! ## Concrete collaborators and inputs, for evaluating the services -/

/-- Bitwise exclusive or of two bytes. -/
def xorByte (k b : Byte) : Byte := toByte (k.val ^^^ b.val)

/-- The size in bytes of the nonce header of a ciphertext (one AES block). -/
def nonceSize : Nat := 16

/-- Modelled from the spec: the encryption of the cipher, whose code is not among the
sources.  The ciphertext is a fresh nonce followed by the plaintext combined with a key
stream; it is as long as the plaintext plus the nonce.  The external state is a counter
the nonce is drawn from, and the key stream is the first nonce byte. -/
def sampleEncrypt (plaintext : List Byte) (s : Nat) : List Byte × Nat :=
  (List.replicate nonceSize (toByte s) ++ plaintext.map (xorByte (toByte s)), s + 1)

/-- Modelled from the spec: the decryption of the cipher, whose code is not among the
sources.  It fails on a ciphertext shorter than the nonce header; otherwise it reads the
nonce from the head of the ciphertext and undoes the key stream on what follows the
header. -/
def sampleDecrypt (ciphertext : List Byte) : Option (List Byte) :=
  if ciphertext.length < nonceSize then none
  else
    match ciphertext with
    | [] => none
    | k :: _ => some ((ciphertext.drop nonceSize).map (xorByte k))

/-- A decryption that does not look at the length of the ciphertext: it drops up to a
header of bytes and undoes the key stream on the rest, so it returns bytes for every
input. -/
def uncheckedDecrypt (ciphertext : List Byte) : Option (List Byte) :=
  match ciphertext with
  | [] => some []
  | k :: _ => some ((ciphertext.drop nonceSize).map (xorByte k))

/-- Modelled from the spec: the cipher `utilities.AesCTRCipher`, built from the two
functions above. -/
def sampleCipher : AesCTRCipher Nat :=
  { Encrypt := sampleEncrypt, Decrypt := sampleDecrypt }

/-- Modelled from the spec: the collaborators of `RegisterUser`, none of which is among
the sources: a salted stretching function that fails on an empty password, the cipher
above, and a DAO that stores the user it is given and hands it back. -/
def sampleCollaborators : UserCollaborators Nat :=
  { GenerateFromPassword := fun password _ s =>
      (if password = [] then .error (Error.External 1)
       else .ok (toByte s :: password.reverse), s + 1)
    Encrypt := sampleEncrypt
    Create := fun user s => ((user, none), s + 1) }

/-- The conversion `string(i)` of an integer: the text of the one rune `i`, or of U+FFFD
when `i` is not a valid rune. -/
def runeString (i : Int) : String :=
  if 0 ≤ i ∧ i < 0x110000 ∧ ¬ (0xD800 ≤ i ∧ i ≤ 0xDFFF) then
    String.singleton (Char.ofNat i.toNat)
  else "�"

/-- Modelled from the spec: a file service over integer identifiers whose collaborators
are not among the sources: a metadata DAO that refuses negative identifiers, the cipher
above, and a directory tree in which every creation succeeds. -/
def sampleFileService : FileServiceImpl Nat Int :=
  { configuration := { FilesPath := "files/" }
    fileDao := { Delete := fun file s =>
                   if file < 0 then (some (Error.External 2), s) else (none, s + 1) }
    aesCipher := sampleCipher
    string := runeString
    MkdirAll := fun _ _ s => (none, s) }

/-- A disk holding one blob of three bytes, shorter than the nonce header, under the
name `A` (the text of identifier 65). -/
def sampleDisk : Disk :=
  fun p => if p = "files/A" then some [toByte 1, toByte 2, toByte 3] else none

/-- The sample file service with the decryption that does not look at the length of the
ciphertext. -/
def uncheckedFileService : FileServiceImpl Nat Int :=
  { sampleFileService with
    aesCipher := { Encrypt := sampleEncrypt, Decrypt := uncheckedDecrypt } }

/-- A world of the file service: the disk above, no request made yet, the nonce counter
at 41, and an operating system that refuses no path. -/
def sampleFsWorld : FsWorld Nat :=
  { disk := sampleDisk, requests := [], state := 41, refused := fun _ => none }

/-- A hexadecimal text of 128 digits. -/
def sampleHexText : List Byte := List.replicate 128 (toByte 0x61)

/-- A credential that passes validation: a well-formed username and, as password, the
base64-URL form of a hexadecimal text of 128 digits. -/
def sampleCredentials : Credentials :=
  { Username := "abcdefg1", Password := base64.EncodeToString sampleHexText }

/-- A username of 41 characters: a letter followed by twenty times an underscore and a
letter. -/
def longUsername : String := "a_b_c_d_e_f_g_h_i_j_k_l_m_n_o_p_q_r_s_t_u"

/-- A world of `RegisterUser` in which no call has been made. -/
def sampleWorld : World Nat := { calls := [], state := 0 }


namespace base64

theorem decodeMap_encode (v : Nat) (h : v < 64) : decodeMap (encode v) = some v := by
  have key : ∀ w : Fin 64, decodeMap (encode w.val) = some w.val := by decide
  exact key ⟨v, h⟩

theorem encode_ne_pad (v : Nat) (h : v < 64) : encode v ≠ padChar := by
  have key : ∀ w : Fin 64, encode w.val ≠ padChar := by decide
  exact key ⟨v, h⟩

theorem encode_not_lineBreak (v : Nat) (h : v < 64) : isLineBreak (encode v) = false := by
  have key : ∀ w : Fin 64, isLineBreak (encode w.val) = false := by decide
  exact key ⟨v, h⟩

theorem decodeQuanta_encodeBytes (bs : List Byte) : decodeQuanta (encodeBytes bs) = .ok bs := by
  induction bs using encodeBytes.induct with
  | case1 => rfl
  | case2 a =>
    have ha := a.isLt
    simp only [encodeBytes, decodeQuanta]
    rw [decodeMap_encode _ (Nat.mod_lt _ (by decide)), decodeMap_encode _ (Nat.mod_lt _ (by decide))]
    simp only [if_true, and_self]
    congr 2
    apply Fin.ext
    simp only [toByte]
    omega
  | case3 a b =>
    have ha := a.isLt
    have hb := b.isLt
    simp only [encodeBytes, decodeQuanta]
    rw [decodeMap_encode _ (Nat.mod_lt _ (by decide)), decodeMap_encode _ (Nat.mod_lt _ (by decide))]
    simp only [encode_ne_pad _ (Nat.mod_lt _ (by decide)), if_false, if_true,
      decodeMap_encode _ (Nat.mod_lt _ (by decide))]
    congr 2
    · apply Fin.ext
      simp only [toByte]
      omega
    · congr 1
      apply Fin.ext
      simp only [toByte]
      omega
  | case4 a b c rest ih =>
    have ha := a.isLt
    have hb := b.isLt
    have hc := c.isLt
    simp only [encodeBytes, decodeQuanta]
    rw [decodeMap_encode _ (Nat.mod_lt _ (by decide)), decodeMap_encode _ (Nat.mod_lt _ (by decide))]
    simp only [encode_ne_pad _ (Nat.mod_lt _ (by decide)), if_false,
      decodeMap_encode _ (Nat.mod_lt _ (by decide)), ih]
    congr 2
    · apply Fin.ext
      simp only [toByte]
      omega
    · congr 1
      · apply Fin.ext
        simp only [toByte]
        omega
      · congr 1
        apply Fin.ext
        simp only [toByte]
        omega

theorem encodeBytes_no_lineBreak (bs : List Byte) :
    (encodeBytes bs).filter (fun c => !isLineBreak c) = encodeBytes bs := by
  rw [List.filter_eq_self]
  induction bs using encodeBytes.induct with
  | case1 => simp [encodeBytes]
  | case2 a =>
    intro c hc
    simp only [encodeBytes, List.mem_cons, List.mem_singleton, List.not_mem_nil, or_false] at hc
    rcases hc with h | h | h | h <;> subst h <;>
      first | exact (by decide : (!isLineBreak padChar) = true) | simp [encode_not_lineBreak _ (Nat.mod_lt _ (by decide : 0 < 64))]
  | case3 a b =>
    intro c hc
    simp only [encodeBytes, List.mem_cons, List.mem_singleton, List.not_mem_nil, or_false] at hc
    rcases hc with h | h | h | h <;> subst h <;>
      first | exact (by decide : (!isLineBreak padChar) = true) | simp [encode_not_lineBreak _ (Nat.mod_lt _ (by decide : 0 < 64))]
  | case4 a b c rest ih =>
    intro x hx
    simp only [encodeBytes, List.mem_cons] at hx
    rcases hx with h | h | h | h | h
    · subst h; simp [encode_not_lineBreak _ (Nat.mod_lt _ (by decide : 0 < 64))]
    · subst h; simp [encode_not_lineBreak _ (Nat.mod_lt _ (by decide : 0 < 64))]
    · subst h; simp [encode_not_lineBreak _ (Nat.mod_lt _ (by decide : 0 < 64))]
    · subst h; simp [encode_not_lineBreak _ (Nat.mod_lt _ (by decide : 0 < 64))]
    · exact ih x h

theorem DecodeString_EncodeToString (bs : List Byte) :
    DecodeString (EncodeToString bs) = .ok bs := by
  show decodeQuanta ((encodeBytes bs).filter (fun c => !isLineBreak c)) = .ok bs
  rw [encodeBytes_no_lineBreak, decodeQuanta_encodeBytes]

end base64


namespace utf8

theorem DecodeRune_ascii (p0 : Byte) (p : List Byte) (h : p0.val < 0x80) :
    DecodeRune p0 p = (p0.val, 1) := by
  simp [DecodeRune, h]

theorem first_spec (p0 sz lo hi : Nat) (h : first p0 = some (sz, lo, hi)) :
    (sz = 2 ∧ 2 ≤ p0 % 32 ∧ p0 < 256) ∨
    (sz = 3 ∧ hi ≤ 0xBF ∧ (1 ≤ p0 % 16 ∨ 0xA0 ≤ lo) ∧ p0 < 256) ∨
    (sz = 4 ∧ hi ≤ 0xBF ∧ (1 ≤ p0 % 8 ∨ 0x90 ≤ lo) ∧ p0 < 256) := by
  unfold first at h
  split_ifs at h <;>
    simp only [Option.some.injEq, Prod.mk.injEq, reduceCtorEq] at h <;>
    omega

theorem DecodeRune_ge (p0 : Byte) (p : List Byte) (h : ¬ p0.val < 0x80) :
    0x80 ≤ (DecodeRune p0 p).1 := by
  unfold DecodeRune
  rw [if_neg h]
  cases hf : first p0.val with
  | none => simp [RuneError]
  | some t =>
    obtain ⟨sz, lo, hi⟩ := t
    have hs := first_spec _ _ _ _ hf
    cases p with
    | nil => simp [RuneError]
    | cons b1 p1 =>
      simp only []
      by_cases hb1 : b1.val < lo ∨ hi < b1.val
      · rw [if_pos hb1]; simp [RuneError]
      · rw [if_neg hb1]
        by_cases h2 : sz ≤ 2
        · rw [if_pos h2]
          simp only []
          omega
        · rw [if_neg h2]
          cases p1 with
          | nil => simp [RuneError]
          | cons b2 p2 =>
            simp only []
            by_cases hb2 : (!isCont b2.val) = true
            · rw [if_pos hb2]; simp [RuneError]
            · rw [if_neg hb2]
              by_cases h3 : sz ≤ 3
              · rw [if_pos h3]
                simp only []
                omega
              · rw [if_neg h3]
                cases p2 with
                | nil => simp [RuneError]
                | cons b3 p3 =>
                  simp only []
                  by_cases hb3 : (!isCont b3.val) = true
                  · rw [if_pos hb3]; simp [RuneError]
                  · rw [if_neg hb3]
                    simp only []
                    omega

theorem runesFuel_ascii (fuel : Nat) (p : List Byte) (hf : p.length ≤ fuel)
    (h : ∀ b ∈ p, b.val < 0x80) : runesFuel fuel p = p.map (fun b => b.val) := by
  induction fuel generalizing p with
  | zero =>
    cases p with
    | nil => rfl
    | cons b t => simp at hf
  | succ n ih =>
    cases p with
    | nil => rfl
    | cons b t =>
      have hb : b.val < 0x80 := h b (List.mem_cons_self _ _)
      simp only [runesFuel, DecodeRune_ascii b t hb, List.map_cons, Nat.sub_self, List.drop_zero]
      rw [ih t (by simpa using hf) (fun x hx => h x (List.mem_cons_of_mem _ hx))]

theorem runesFuel_lt (fuel : Nat) (p : List Byte) (hf : p.length ≤ fuel)
    (h : ∀ r ∈ runesFuel fuel p, r < 0x80) : ∀ b ∈ p, b.val < 0x80 := by
  induction fuel generalizing p with
  | zero =>
    cases p with
    | nil => simp
    | cons b t => simp at hf
  | succ n ih =>
    cases p with
    | nil => simp
    | cons b t =>
      simp only [runesFuel, List.mem_cons, forall_eq_or_imp] at h
      have hb : b.val < 0x80 := by
        by_contra hge
        have := DecodeRune_ge b t hge
        omega
      rw [DecodeRune_ascii b t hb] at h
      simp only [Nat.sub_self, List.drop_zero] at h
      intro x hx
      rcases List.mem_cons.mp hx with rfl | hx
      · exact hb
      · exact ih t (by simpa using hf) h.2 x hx

/-- A byte slice decodes to ASCII runes only if it is ASCII, and then rune by byte. -/
theorem runes_ascii_iff (p : List Byte) :
    (∀ r ∈ runes p, r < 0x80) ↔ (∀ b ∈ p, b.val < 0x80) := by
  constructor
  · exact runesFuel_lt p.length p (Nat.le_refl _)
  · intro h r hr
    rw [runes, runesFuel_ascii _ _ (Nat.le_refl _) h] at hr
    obtain ⟨b, hb, rfl⟩ := List.mem_map.mp hr
    exact h b hb

theorem runes_of_ascii (p : List Byte) (h : ∀ b ∈ p, b.val < 0x80) :
    runes p = p.map (fun b => b.val) :=
  runesFuel_ascii _ _ (Nat.le_refl _) h

end utf8


namespace regexp

theorem places_index (i : Nat) (l : List Nat) : ∀ p ∈ places i l, i ≤ p.index := by
  induction l generalizing i with
  | nil => intro p hp; simp only [places, List.mem_singleton] at hp; subst hp; exact Nat.le_refl _
  | cons r rest ih =>
    intro p hp
    simp only [places, List.mem_cons] at hp
    rcases hp with rfl | hp
    · exact Nat.le_refl _
    · exact Nat.le_of_succ_le (ih (i + 1) p hp)

theorem places_head (i : Nat) (l : List Nat) :
    ∃ tl, places i l = ⟨i, l⟩ :: tl ∧ ∀ p ∈ tl, i + 1 ≤ p.index := by
  cases l with
  | nil => exact ⟨[], rfl, by simp⟩
  | cons r rest => exact ⟨places (i + 1) rest, rfl, places_index (i + 1) rest⟩

/-- An expression that opens with `^` can only match from the start of the input. -/
theorem matchRunes_beginText (x : Regexp) (input : List Nat) :
    matchRunes (.Concat .BeginText x) input = !(ends x ⟨0, input⟩).isEmpty := by
  obtain ⟨tl, htl, hidx⟩ := places_head 0 input
  have htail : tl.any (fun p => !(ends (.Concat .BeginText x) p).isEmpty) = false := by
    rw [List.any_eq_false]
    intro p hp
    have := hidx p hp
    have hne : ¬ p.index = 0 := by omega
    simp [ends, hne]
  simp only [matchRunes, htl, List.any_cons, htail, Bool.or_false]
  simp [ends]

theorem ends_concat (a b : Regexp) (p : Pos) :
    ends (.Concat a b) p = (ends a p).flatMap (ends b) := rfl

theorem ends_repeat (lo hi : Nat) (sub : Regexp) (p : Pos) :
    ends (.Repeat lo hi sub) p = iterate (ends sub) lo hi p := rfl

theorem ends_endText (p : Pos) : ends .EndText p = if p.rest = [] then [p] else [] := rfl

theorem ends_alternate (a b : Regexp) (p : Pos) :
    ends (.Alternate a b) p = ends a p ++ ends b p := rfl

theorem ends_capture (a : Regexp) (p : Pos) : ends (.Capture a) p = ends a p := rfl

theorem ends_charClass_nil (fc : Bool) (ranges : List (Nat × Nat)) (i : Nat) :
    ends (.CharClass fc ranges) ⟨i, []⟩ = [] := rfl

theorem ends_charClass_cons (fc : Bool) (ranges : List (Nat × Nat)) (i r : Nat)
    (rest : List Nat) :
    ends (.CharClass fc ranges) ⟨i, r :: rest⟩ =
      if matchClass fc ranges r then [⟨i + 1, rest⟩] else [] := rfl

theorem ends_literal_nil (fc : Bool) (lit i : Nat) :
    ends (.Literal fc lit) ⟨i, []⟩ = [] := rfl

theorem ends_literal_cons (fc : Bool) (lit i r : Nat) (rest : List Nat) :
    ends (.Literal fc lit) ⟨i, r :: rest⟩ =
      if matchLiteral fc lit r then [⟨i + 1, rest⟩] else [] := rfl

theorem iterate_zero (f : Pos → List Pos) (lo : Nat) (p : Pos) :
    iterate f lo 0 p = if lo = 0 then [p] else [] := by
  cases lo <;> rfl

theorem iterate_succ (f : Pos → List Pos) (lo hi : Nat) (p : Pos) :
    iterate f lo (hi + 1) p =
      (if lo = 0 then [p] else []) ++ (f p).flatMap (iterate f (lo - 1) hi) := by
  cases lo <;> rfl

theorem iterate_exact_class (fc : Bool) (ranges : List (Nat × Nat)) (n : Nat) (p : Pos) :
    iterate (ends (.CharClass fc ranges)) n n p =
      if n ≤ p.rest.length ∧ ∀ r ∈ p.rest.take n, matchClass fc ranges r = true
      then [⟨p.index + n, p.rest.drop n⟩] else [] := by
  induction n generalizing p with
  | zero => simp [iterate_zero]
  | succ n ih =>
    obtain ⟨idx, rest⟩ := p
    rw [iterate_succ]
    cases rest with
    | nil => simp [ends_charClass_nil]
    | cons r rest =>
      rw [ends_charClass_cons]
      by_cases hr : matchClass fc ranges r = true
      · rw [if_pos hr]
        simp only [Nat.add_one_ne_zero, if_false, List.nil_append, List.flatMap_cons,
          List.flatMap_nil, List.append_nil, Nat.add_sub_cancel, ih, List.length_cons,
          List.take_succ_cons, List.mem_cons, forall_eq_or_imp, hr, true_and,
          List.drop_succ_cons, Nat.add_le_add_iff_right]
        simp only [Nat.add_assoc, Nat.add_comm 1 n]
      · rw [if_neg hr]
        simp [hr]

theorem matchClass_hex (r : Nat) :
    matchClass false [(0x41, 0x46), (0x61, 0x66), (0x30, 0x39)] r = isHexDigit r := by
  simp only [matchClass, inRanges, isHexDigit, List.any_cons, List.any_nil, Bool.or_false,
    Bool.false_and]
  cases h1 : (decide (0x41 ≤ r) && decide (r ≤ 0x46)) <;>
  cases h2 : (decide (0x61 ≤ r) && decide (r ≤ 0x66)) <;>
  cases h3 : (decide (0x30 ≤ r) && decide (r ≤ 0x39)) <;> rfl

end regexp

/-- On runes, `sha512Regex` matches exactly the sequences of 128 hexadecimal digits. -/
theorem matchRunes_sha512Regex (input : List Nat) :
    regexp.matchRunes sha512Regex input = true ↔
      input.length = 128 ∧ ∀ r ∈ input, isHexDigit r = true := by
  rw [sha512Regex, regexp.matchRunes_beginText]
  rw [regexp.ends_concat, regexp.ends_repeat, hexClass, regexp.iterate_exact_class]
  simp only [regexp.matchClass_hex, regexp.ends_endText]
  by_cases h : 128 ≤ input.length ∧ ∀ r ∈ input.take 128, isHexDigit r = true
  · rw [if_pos h]
    simp only [List.flatMap_cons, List.flatMap_nil, List.append_nil]
    by_cases hd : input.drop 128 = []
    · have hlen : input.length = 128 := by
        have := List.drop_eq_nil_iff.mp hd
        omega
      have htake : input.take 128 = input := List.take_of_length_le (by omega)
      rw [htake] at h
      simp only [hd, hlen, regexp.ends_endText, if_true, List.isEmpty_cons, Bool.not_false,
        true_and, true_iff]
      exact h.2
    · have hlen : ¬ input.length = 128 := by
        intro hl
        exact hd (List.drop_eq_nil_iff.mpr (by omega))
      simp [hd, hlen, regexp.ends_endText]
  · rw [if_neg h]
    simp only [List.flatMap_nil, List.isEmpty_nil, Bool.not_true, Bool.false_eq_true, false_iff]
    rintro ⟨hl, hall⟩
    apply h
    refine ⟨by omega, ?_⟩
    rw [List.take_of_length_le (by omega)]
    exact hall

/-- On bytes, `sha512Regex` matches exactly the texts of 128 hexadecimal digits. -/
theorem Match_sha512Regex (d : List Byte) :
    regexp.Match sha512Regex d = true ↔ isSha512Hex d := by
  have hexlt : ∀ r : Nat, isHexDigit r = true → r < 0x80 := by
    intro r hr
    simp only [isHexDigit, Bool.or_eq_true, Bool.and_eq_true, decide_eq_true_eq] at hr
    omega
  rw [regexp.Match, matchRunes_sha512Regex, isSha512Hex]
  constructor
  · rintro ⟨hl, hall⟩
    have hascii : ∀ b ∈ d, b.val < 0x80 :=
      (utf8.runes_ascii_iff d).mp (fun r hr => hexlt r (hall r hr))
    rw [utf8.runes_of_ascii d hascii] at hl hall
    refine ⟨by simpa using hl, fun b hb => hall b.val (List.mem_map.mpr ⟨b, hb, rfl⟩)⟩
  · rintro ⟨hl, hall⟩
    have hascii : ∀ b ∈ d, b.val < 0x80 := fun b hb => hexlt _ (hall b hb)
    rw [utf8.runes_of_ascii d hascii]
    refine ⟨by simpa using hl, ?_⟩
    intro r hr
    obtain ⟨b, hb, rfl⟩ := List.mem_map.mp hr
    exact hall b hb



namespace regexp

theorem ends_charClass_consumes (fc : Bool) (ranges : List (Nat × Nat)) (p q : Pos)
    (h : q ∈ ends (.CharClass fc ranges) p) : q.rest.length + 1 = p.rest.length := by
  obtain ⟨i, rest⟩ := p
  cases rest with
  | nil => simp [ends_charClass_nil] at h
  | cons r rest =>
    rw [ends_charClass_cons] at h
    split_ifs at h
    · simp only [List.mem_singleton] at h
      subst h
      rfl
    · simp at h

theorem ends_literal_consumes (fc : Bool) (lit : Nat) (p q : Pos)
    (h : q ∈ ends (.Literal fc lit) p) : q.rest.length + 1 = p.rest.length := by
  obtain ⟨i, rest⟩ := p
  cases rest with
  | nil => simp [ends_literal_nil] at h
  | cons r rest =>
    rw [ends_literal_cons] at h
    split_ifs at h
    · simp only [List.mem_singleton] at h
      subst h
      rfl
    · simp at h

theorem iterate_consumes (f : Pos → List Pos)
    (hf : ∀ p q, q ∈ f p → ∃ c, 1 ≤ c ∧ c ≤ 2 ∧ q.rest.length + c = p.rest.length)
    (hi lo : Nat) (p q : Pos) (h : q ∈ iterate f lo hi p) :
    ∃ c, lo ≤ c ∧ c ≤ 2 * hi ∧ q.rest.length + c = p.rest.length := by
  induction hi generalizing lo p with
  | zero =>
    rw [iterate_zero] at h
    split_ifs at h with h0
    · simp only [List.mem_singleton] at h
      subst h
      exact ⟨0, by omega, by omega, rfl⟩
    · simp at h
  | succ n ih =>
    rw [iterate_succ, List.mem_append] at h
    rcases h with h | h
    · split_ifs at h with h0
      · simp only [List.mem_singleton] at h
        subst h
        exact ⟨0, by omega, by omega, rfl⟩
      · simp at h
    · obtain ⟨m, hm, hq⟩ := List.mem_flatMap.mp h
      obtain ⟨c1, h1, h2, h3⟩ := hf p m hm
      obtain ⟨c2, h4, h5, h6⟩ := ih (lo - 1) m hq
      exact ⟨c1 + c2, by omega, by omega, by omega⟩

end regexp

/-- One round of the repeated group of `usernameRegex` takes one or two runes. -/
theorem nickUnit_consumes (p q : regexp.Pos)
    (h : q ∈ regexp.ends
      (.Alternate nickClass (.Concat (.Literal true 0x5F) (.Capture nickClass))) p) :
    ∃ c, 1 ≤ c ∧ c ≤ 2 ∧ q.rest.length + c = p.rest.length := by
  rw [regexp.ends_alternate, List.mem_append] at h
  rcases h with h | h
  · exact ⟨1, by omega, by omega, regexp.ends_charClass_consumes _ _ p q h⟩
  · rw [regexp.ends_concat] at h
    obtain ⟨m, hm, hq⟩ := List.mem_flatMap.mp h
    rw [regexp.ends_capture] at hq
    have h1 := regexp.ends_literal_consumes _ _ p m hm
    have h2 := regexp.ends_charClass_consumes _ _ m q hq
    exact ⟨2, by omega, by omega, by omega⟩

/-- Every rune sequence `usernameRegex` matches has between 7 and 41 runes. -/
theorem matchRunes_usernameRegex_length (input : List Nat)
    (h : regexp.matchRunes usernameRegex input = true) :
    7 ≤ input.length ∧ input.length ≤ 41 := by
  rw [usernameRegex, regexp.matchRunes_beginText] at h
  simp only [Bool.not_eq_true', List.isEmpty_eq_false] at h
  obtain ⟨q, hq⟩ := List.exists_mem_of_ne_nil _ h
  rw [regexp.ends_concat] at hq
  obtain ⟨m1, hm1, hq⟩ := List.mem_flatMap.mp hq
  rw [regexp.ends_concat] at hq
  obtain ⟨m2, hm2, hq⟩ := List.mem_flatMap.mp hq
  have h1 := regexp.ends_charClass_consumes _ _ _ m1 hm1
  rw [regexp.ends_repeat] at hm2
  obtain ⟨c, hc1, hc2, hc3⟩ := regexp.iterate_consumes _ nickUnit_consumes 20 6 m1 m2 hm2
  rw [regexp.ends_endText] at hq
  split_ifs at hq with hnil
  · simp only [List.mem_singleton] at hq
    have hlen : m2.rest.length = 0 := by rw [hnil]; rfl
    simp only [] at h1
    omega
  · simp at hq

/-- Every username `usernameRegex` matches has between 7 and 41 characters. -/
theorem MatchString_usernameRegex_length (u : String)
    (h : regexp.MatchString usernameRegex u = true) : 7 ≤ u.length ∧ u.length ≤ 41 := by
  have hb := matchRunes_usernameRegex_length (u.toList.map Char.toNat) h
  rw [List.length_map] at hb
  exact hb


/-! ## The validator -/

/-- The validator returns nil exactly when the password decodes, the username matches
`usernameRegex` and the decoded password is a text of 128 hexadecimal digits. -/
theorem validateCredentials_eq_none_iff (c : Credentials) :
    validateCredentials c = none ↔
      ∃ d, base64.DecodeString c.Password = .ok d ∧
        regexp.MatchString usernameRegex c.Username = true ∧ isSha512Hex d := by
  unfold validateCredentials
  cases hd : base64.DecodeString c.Password with
  | error e => simp
  | ok d =>
    simp only [Except.ok.injEq, exists_eq_left']
    by_cases hu : regexp.MatchString usernameRegex c.Username = true
    · by_cases hp : regexp.Match sha512Regex d = true
      · simp [hu, hp, (Match_sha512Regex d).mp hp]
      · have hn : ¬ isSha512Hex d := fun h => hp ((Match_sha512Regex d).mpr h)
        simp [hu, hp, hn]
    · simp [hu]

/-- A matching username with the base64-URL form of 128 hexadecimal digits is accepted. -/
theorem validateCredentials_encoded (u : String) (h : List Byte)
    (hu : regexp.MatchString usernameRegex u = true) (hh : isSha512Hex h) :
    validateCredentials ⟨u, base64.EncodeToString h⟩ = none :=
  (validateCredentials_eq_none_iff _).mpr
    ⟨h, base64.DecodeString_EncodeToString h, hu, hh⟩

theorem sampleHexText_isSha512Hex : isSha512Hex sampleHexText := by
  constructor
  · simp [sampleHexText]
  · intro b hb
    rw [sampleHexText, List.mem_replicate] at hb
    rw [hb.2]
    decide

theorem sampleCredentials_valid : validateCredentials sampleCredentials = none :=
  validateCredentials_encoded _ _ (by decide) sampleHexText_isSha512Hex

/-! ## The sample cipher -/

theorem xorByte_xorByte (k b : Byte) : xorByte k (xorByte k b) = b := by
  apply Fin.ext
  have hk : k.val < 2 ^ 8 := k.isLt
  have hb : b.val < 2 ^ 8 := b.isLt
  have hx : k.val ^^^ b.val < 256 := Nat.xor_lt_two_pow hk hb
  have hb2 : b.val < 256 := b.isLt
  simp only [xorByte, toByte]
  rw [Nat.mod_eq_of_lt hx, ← Nat.xor_assoc, Nat.xor_self, Nat.zero_xor]
  exact Nat.mod_eq_of_lt hb2

theorem sampleCipher_round (P : List Byte) (s : Nat) :
    sampleCipher.Decrypt (sampleCipher.Encrypt P s).1 = some P := by
  show sampleDecrypt (List.replicate nonceSize (toByte s) ++ P.map (xorByte (toByte s)))
    = some P
  have hdrop : (List.replicate nonceSize (toByte s) ++ P.map (xorByte (toByte s))).drop
      nonceSize = P.map (xorByte (toByte s)) := by
    rw [List.drop_append_of_le_length (by simp)]
    simp
  have hlen : ¬ (List.replicate nonceSize (toByte s) ++ P.map (xorByte (toByte s))).length
      < nonceSize := by
    simp
  have hhead : List.replicate nonceSize (toByte s) ++ P.map (xorByte (toByte s)) =
      toByte s :: (List.replicate 15 (toByte s) ++ P.map (xorByte (toByte s))) := rfl
  unfold sampleDecrypt
  rw [if_neg hlen, hhead]
  simp only []
  rw [← hhead, hdrop, List.map_map]
  congr 1
  conv_rhs => rw [← List.map_id P]
  apply List.map_congr_left
  intro b _
  exact xorByte_xorByte _ _

/-! ## The claims -/

/-- Claim C1 as amended. Store round trip: with a cipher whose `Decrypt` undoes `Encrypt`,
for every file record `f` and every payload `P` (the empty one included, and whatever the
disk held at that path) for which `SaveFile` returns a nil error, `GetDecryptedLocalFile`
of `f` afterwards returns exactly `P` with a nil error; and `SaveFile` returns nil exactly
when the path of the blob has no NUL byte and the operating system does not refuse it,
returning the error of the write otherwise. -/
theorem saveFile_then_getDecryptedLocalFile {σ ι : Type} (fileService : FileServiceImpl σ ι)
    (hcipher : ∀ (P : List Byte) (s : σ),
      fileService.aesCipher.Decrypt (fileService.aesCipher.Encrypt P s).1 = some P)
    (P : List Byte) (f : File ι) (w : FsWorld σ) :
    ((fileService.SaveFile (.ok P) f w).1 = none →
      fileService.GetDecryptedLocalFile f (fileService.SaveFile (.ok P) f w).2 =
        .returned (P, none)) ∧
    ((fileService.SaveFile (.ok P) f w).1 = none ↔
      (hasNUL (fileService.configuration.FilesPath ++ fileService.string f.Id) = false ∧
        w.refused (fileService.configuration.FilesPath ++ fileService.string f.Id) = none)) ∧
    (fileService.SaveFile (.ok P) f w).1 =
      (ioutil.WriteFile { w with state := (fileService.aesCipher.Encrypt P w.state).2 }
        (fileService.configuration.FilesPath ++ fileService.string f.Id)
        (fileService.aesCipher.Encrypt P w.state).1 userReadablePerms).1 := by
  have hsave : (fileService.SaveFile (.ok P) f w).1 =
      (ioutil.WriteFile { w with state := (fileService.aesCipher.Encrypt P w.state).2 }
        (fileService.configuration.FilesPath ++ fileService.string f.Id)
        (fileService.aesCipher.Encrypt P w.state).1 userReadablePerms).1 := by
    simp only [FileServiceImpl.SaveFile]
    split <;> simp_all
  by_cases hn : hasNUL (fileService.configuration.FilesPath ++ fileService.string f.Id) = true
  · have he : (fileService.SaveFile (.ok P) f w).1 = some (Error.InvalidArgument "open"
        (fileService.configuration.FilesPath ++ fileService.string f.Id)) := by
      rw [hsave]
      simp [ioutil.WriteFile, hn]
    refine ⟨?_, ?_, hsave⟩
    · intro h
      rw [he] at h
      exact absurd h (by simp)
    · rw [he]
      simp [hn]
  · have hn2 : hasNUL (fileService.configuration.FilesPath ++ fileService.string f.Id) = false := by
      simpa using hn
    cases hr : w.refused (fileService.configuration.FilesPath ++ fileService.string f.Id) with
    | some e =>
      have he : (fileService.SaveFile (.ok P) f w).1 = some e := by
        rw [hsave]
        simp [ioutil.WriteFile, hn2, hr]
      refine ⟨?_, ?_, hsave⟩
      · intro h
        rw [he] at h
        exact absurd h (by simp)
      · rw [he]
        simp
    | none =>
      have he : (fileService.SaveFile (.ok P) f w).1 = none := by
        rw [hsave]
        simp [ioutil.WriteFile, hn2, hr]
      refine ⟨?_, ?_, hsave⟩
      · intro _
        simp [FileServiceImpl.SaveFile, FileServiceImpl.GetDecryptedLocalFile, ioutil.WriteFile,
          ioutil.ReadFile, Disk.store, hcipher, hn2, hr]
      · rw [he]
        simp [hn2]

/-- Witness of C1 as amended: on the sample service, saving `hello` over the blob already
stored under identifier 65 succeeds and reads back unchanged, and so does saving the empty
payload under identifier 66. -/
theorem saveFile_then_getDecryptedLocalFile_witness :
    sampleFileService.GetDecryptedLocalFile ⟨65, "a.txt"⟩
        (sampleFileService.SaveFile (.ok (asciiBytes "hello")) ⟨65, "a.txt"⟩ sampleFsWorld).2
        = .returned (asciiBytes "hello", none) ∧
    sampleFileService.GetDecryptedLocalFile ⟨66, "b.txt"⟩
        (sampleFileService.SaveFile (.ok []) ⟨66, "b.txt"⟩ sampleFsWorld).2
        = .returned ([], none) :=
  ⟨(saveFile_then_getDecryptedLocalFile sampleFileService sampleCipher_round
      (asciiBytes "hello") ⟨65, "a.txt"⟩ sampleFsWorld).1 (by decide),
   (saveFile_then_getDecryptedLocalFile sampleFileService sampleCipher_round
      [] ⟨66, "b.txt"⟩ sampleFsWorld).1 (by decide)⟩

/-- Counterexample to C1 as stated: for the record with identifier 0 the name of the blob
is the one NUL character, the write is refused with `EINVAL`, `SaveFile` returns that
error, and `GetDecryptedLocalFile` afterwards returns an error and no bytes, not the
payload `hello`. -/
theorem saveFile_unwritable_record_counterexample :
    sampleFileService.string (0 : Int) = String.singleton (Char.ofNat 0) ∧
    (sampleFileService.SaveFile (.ok (asciiBytes "hello")) ⟨0, "a.txt"⟩ sampleFsWorld).1 =
      some (Error.InvalidArgument "open" ("files/" ++ String.singleton (Char.ofNat 0))) ∧
    sampleFileService.GetDecryptedLocalFile ⟨0, "a.txt"⟩
        (sampleFileService.SaveFile (.ok (asciiBytes "hello")) ⟨0, "a.txt"⟩ sampleFsWorld).2 =
      .returned ([], some (Error.InvalidArgument "open"
        ("files/" ++ String.singleton (Char.ofNat 0)))) := by
  decide

/-- Claim C2. Validator acceptance: `validateCredentials` returns nil if and only if the
password is valid base64-URL text, the username matches the username pattern and the
decoded password is exactly 128 hexadecimal characters.  In particular every matching
username (such as `abcdefg1`) with the base64-URL form of any 128 hexadecimal characters
is accepted; username `ab` with a decodable password fails with `InvalidUsernameError`;
a matching username with the password base64url("not-hex") fails with
`InvalidPasswordError`. -/
theorem validateCredentials_acceptance :
    (∀ c : Credentials, validateCredentials c = none ↔
      ((∃ d, base64.DecodeString c.Password = .ok d ∧ isSha512Hex d) ∧
        regexp.MatchString usernameRegex c.Username = true)) ∧
    (∀ (u : String) (h : List Byte), regexp.MatchString usernameRegex u = true →
      isSha512Hex h → validateCredentials ⟨u, base64.EncodeToString h⟩ = none) ∧
    regexp.MatchString usernameRegex "abcdefg1" = true ∧
    (∀ (p : String) (d : List Byte), base64.DecodeString p = .ok d →
      validateCredentials ⟨"ab", p⟩ = some (Error.New InvalidUsernameError)) ∧
    (∀ u : String, regexp.MatchString usernameRegex u = true →
      validateCredentials ⟨u, base64.EncodeToString (asciiBytes "not-hex")⟩ =
        some (Error.New InvalidPasswordError)) := by
  refine ⟨?_, validateCredentials_encoded, by decide, ?_, ?_⟩
  · intro c
    rw [validateCredentials_eq_none_iff]
    constructor
    · rintro ⟨d, hd, hu, hh⟩
      exact ⟨⟨d, hd, hh⟩, hu⟩
    · rintro ⟨⟨d, hd, hh⟩, hu⟩
      exact ⟨d, hd, hu, hh⟩
  · intro p d hd
    have hu : regexp.MatchString usernameRegex "ab" = false := by decide
    simp [validateCredentials, hd, hu]
  · intro u hu
    have hd := base64.DecodeString_EncodeToString (asciiBytes "not-hex")
    have hp : regexp.Match sha512Regex (asciiBytes "not-hex") = false := by decide
    simp [validateCredentials, hd, hu, hp]

/-- Witness of C2: the credential `abcdefg1` with the base64-URL form of 128 digits `a`
is accepted, `ab` with the decodable password `bm90LWhleA==` is refused for its username,
and `abcdefg1` with base64url("not-hex") is refused for its password. -/
theorem validateCredentials_acceptance_witness :
    validateCredentials ⟨"abcdefg1", base64.EncodeToString sampleHexText⟩ = none ∧
    validateCredentials ⟨"ab", "bm90LWhleA=="⟩ = some (Error.New InvalidUsernameError) ∧
    validateCredentials ⟨"abcdefg1", base64.EncodeToString (asciiBytes "not-hex")⟩ =
      some (Error.New InvalidPasswordError) :=
  ⟨validateCredentials_acceptance.2.1 "abcdefg1" sampleHexText (by decide)
      sampleHexText_isSha512Hex,
   validateCredentials_acceptance.2.2.2.1 "bm90LWhleA==" (asciiBytes "not-hex") (by decide),
   validateCredentials_acceptance.2.2.2.2 "abcdefg1" (by decide)⟩

/-- Claim C3. Validation order: when the password is not valid base64-URL text the validator
returns the decoding error whatever the username is; when the password decodes and both
the username and the decoded password are malformed, the error is
`InvalidUsernameError` and not `InvalidPasswordError`. -/
theorem validateCredentials_order :
    (∀ (c : Credentials) (e : Error), base64.DecodeString c.Password = .error e →
      validateCredentials c = some e) ∧
    (∀ (c : Credentials) (d : List Byte), base64.DecodeString c.Password = .ok d →
      regexp.MatchString usernameRegex c.Username = false →
      regexp.Match sha512Regex d = false →
      validateCredentials c = some (Error.New InvalidUsernameError) ∧
      validateCredentials c ≠ some (Error.New InvalidPasswordError)) := by
  constructor
  · intro c e he
    simp [validateCredentials, he]
  · intro c d hd hu _
    have hv : validateCredentials c = some (Error.New InvalidUsernameError) := by
      simp [validateCredentials, hd, hu]
    refine ⟨hv, ?_⟩
    rw [hv]
    decide

/-- Witness of C3: with the undecodable password `bm90LWhleA=` the error is the decoding
error both for the malformed username `ab` and for the well-formed `abcdefg1`; with the
decodable `bm90LWhleA==` and username `ab`, both malformed, it is
`InvalidUsernameError`. -/
theorem validateCredentials_order_witness :
    validateCredentials ⟨"ab", "bm90LWhleA="⟩ = some Error.CorruptInputError ∧
    validateCredentials ⟨"abcdefg1", "bm90LWhleA="⟩ = some Error.CorruptInputError ∧
    (validateCredentials ⟨"ab", "bm90LWhleA=="⟩ = some (Error.New InvalidUsernameError) ∧
      validateCredentials ⟨"ab", "bm90LWhleA=="⟩ ≠ some (Error.New InvalidPasswordError)) :=
  ⟨validateCredentials_order.1 ⟨"ab", "bm90LWhleA="⟩ _ (by decide),
   validateCredentials_order.1 ⟨"abcdefg1", "bm90LWhleA="⟩ _ (by decide),
   validateCredentials_order.2 ⟨"ab", "bm90LWhleA=="⟩ (asciiBytes "not-hex") (by decide)
     (by decide) (by decide)⟩


theorem getElem_at_length_append {α : Type} (l : List α) (a : α) (t : List α) :
    (l ++ a :: t)[l.length]? = some a := by
  induction l with
  | nil => simp
  | cons x l ih => simpa using ih

/-- Claim C4. Registration failure has no side effects: when `validateCredentials` fails,
`RegisterUser` returns the zero-value user with exactly the validator's error, and the
world is unchanged: no call to bcrypt, to the cipher or to `userDao.Create` is recorded
and the external state is the one it started from. -/
theorem registerUser_invalid_no_effect {σ : Type} (k : UserCollaborators σ)
    (c : Credentials) (w : World σ) (e : Error) (hv : validateCredentials c = some e) :
    RegisterUser k c w = ((User.zero, some e), w) := by
  simp [RegisterUser, hv]

/-- Witness of C4: registering `ab` with the password base64url("not-hex") on the sample
collaborators returns the zero user with `InvalidUsernameError` and leaves the world, with
its empty call log, as it was. -/
theorem registerUser_invalid_no_effect_witness :
    RegisterUser sampleCollaborators ⟨"ab", "bm90LWhleA=="⟩ sampleWorld =
      ((User.zero, some (Error.New InvalidUsernameError)), sampleWorld) :=
  registerUser_invalid_no_effect sampleCollaborators ⟨"ab", "bm90LWhleA=="⟩ sampleWorld
    (Error.New InvalidUsernameError) (by decide)

/-- Claim C5. Stored credential shape: for a credential that passes validation, with `d` the
decoding of its password, when stretching `d` succeeds with `h` the user handed to
`userDao.Create` has the username unchanged and the password
base64url(Encrypt(h)); decoding that password gives back exactly the cipher output; the
calls made are bcrypt, the cipher and `Create`, in that order; and `RegisterUser` returns
exactly what `userDao.Create` returns. -/
theorem registerUser_stored_credentials {σ : Type} (k : UserCollaborators σ)
    (c : Credentials) (w : World σ) (d h : List Byte) (s1 : σ)
    (hv : validateCredentials c = none)
    (hd : base64.DecodeString c.Password = .ok d)
    (hs : k.GenerateFromPassword d bcrypt.DefaultCost w.state = (.ok h, s1)) :
    let user : User :=
      ⟨⟨c.Username, base64.EncodeToString (k.Encrypt h s1).1⟩⟩
    (RegisterUser k c w).1 = (k.Create user (k.Encrypt h s1).2).1 ∧
    (RegisterUser k c w).2.calls =
      w.calls ++ [.GenerateFromPassword d bcrypt.DefaultCost, .Encrypt h, .Create user] ∧
    (RegisterUser k c w).2.state = (k.Create user (k.Encrypt h s1).2).2 ∧
    user.Credentials.Username = c.Username ∧
    base64.DecodeString user.Credentials.Password = .ok (k.Encrypt h s1).1 := by
  intro user
  refine ⟨?_, ?_, ?_, rfl, base64.DecodeString_EncodeToString _⟩
  · simp [RegisterUser, hv, hd, hs, World.record, User.zero, user]
  · simp [RegisterUser, hv, hd, hs, World.record, User.zero, user]
  · simp [RegisterUser, hv, hd, hs, World.record, User.zero, user]

/-- Witness of C5: the sample credential on the sample collaborators. -/
theorem registerUser_stored_credentials_witness :
    let h : List Byte := toByte 0 :: sampleHexText.reverse
    let user : User :=
      ⟨⟨"abcdefg1", base64.EncodeToString (sampleCollaborators.Encrypt h 1).1⟩⟩
    (RegisterUser sampleCollaborators sampleCredentials sampleWorld).1 =
        (sampleCollaborators.Create user (sampleCollaborators.Encrypt h 1).2).1 ∧
    (RegisterUser sampleCollaborators sampleCredentials sampleWorld).2.calls =
      sampleWorld.calls ++
        [.GenerateFromPassword sampleHexText bcrypt.DefaultCost, .Encrypt h, .Create user] ∧
    (RegisterUser sampleCollaborators sampleCredentials sampleWorld).2.state =
      (sampleCollaborators.Create user (sampleCollaborators.Encrypt h 1).2).2 ∧
    user.Credentials.Username = sampleCredentials.Username ∧
    base64.DecodeString user.Credentials.Password =
      .ok (sampleCollaborators.Encrypt h 1).1 :=
  registerUser_stored_credentials sampleCollaborators sampleCredentials sampleWorld
    sampleHexText (toByte 0 :: sampleHexText.reverse) 1 sampleCredentials_valid
    (base64.DecodeString_EncodeToString sampleHexText) (by decide)

/-- Claim C6 as amended. Stretching input: for every credential that passes validation, the
byte string `RegisterUser` passes to the stretching function is the base64-URL decoding of
the password, which is the hexadecimal text of 128 characters itself (128 bytes); it is
passed with the cost `bcrypt.DefaultCost`, as the first call `RegisterUser` makes. -/
theorem registerUser_stretches_hex_text {σ : Type} (k : UserCollaborators σ)
    (c : Credentials) (w : World σ) (hv : validateCredentials c = none) :
    ∃ d, base64.DecodeString c.Password = .ok d ∧ isSha512Hex d ∧ d.length = 128 ∧
      (RegisterUser k c w).2.calls[w.calls.length]? =
        some (.GenerateFromPassword d bcrypt.DefaultCost) := by
  obtain ⟨d, hd, _, hh⟩ := (validateCredentials_eq_none_iff c).mp hv
  refine ⟨d, hd, hh, hh.1, ?_⟩
  simp only [RegisterUser, hv, hd, World.record]
  split <;> simp only [List.append_assoc] <;> exact getElem_at_length_append _ _ _

/-- Witness of C6 as amended: the sample credential on the sample collaborators. -/
theorem registerUser_stretches_hex_text_witness :
    ∃ d, base64.DecodeString sampleCredentials.Password = .ok d ∧ isSha512Hex d ∧
      d.length = 128 ∧
      (RegisterUser sampleCollaborators sampleCredentials sampleWorld).2.calls[
          sampleWorld.calls.length]? =
        some (.GenerateFromPassword d bcrypt.DefaultCost) :=
  registerUser_stretches_hex_text sampleCollaborators sampleCredentials sampleWorld
    sampleCredentials_valid

/-- Counterexample to C6 as stated: the sample credential passes validation, and the
first call `RegisterUser` makes hands bcrypt the hexadecimal text of 128 bytes, which is
not a digest of 64 bytes. -/
theorem registerUser_stretch_input_counterexample :
    validateCredentials sampleCredentials = none ∧
    (RegisterUser sampleCollaborators sampleCredentials sampleWorld).2.calls.head? =
      some (.GenerateFromPassword sampleHexText bcrypt.DefaultCost) ∧
    sampleHexText.length = 128 ∧ sampleHexText.length ≠ 64 := by
  refine ⟨sampleCredentials_valid, ?_, by simp [sampleHexText], by simp [sampleHexText]⟩
  have hd : base64.DecodeString sampleCredentials.Password = .ok sampleHexText :=
    base64.DecodeString_EncodeToString sampleHexText
  simp only [RegisterUser, sampleCredentials_valid, hd, World.record]
  split <;> simp [sampleWorld]

/-- Claim C7 as amended. Load error reporting: for every file record whose blob can be
read, also when it is corrupt or shorter than the nonce header, `GetDecryptedLocalFile`
never returns a non-nil error: the cipher's `Decrypt` has no error result, so the method
returns the bytes `Decrypt` returns together with a nil error, and where `Decrypt` fails
it panics and the method returns nothing.  For every file record whose blob cannot be
read the method returns the file-read error with no bytes, and that error is the
not-found path error when no blob exists at the path. -/
theorem getDecryptedLocalFile_errors {σ ι : Type} (fileService : FileServiceImpl σ ι)
    (f : File ι) (w : FsWorld σ) :
    (∀ blob, ioutil.ReadFile w
        (fileService.configuration.FilesPath ++ fileService.string f.Id) = .ok blob →
      (∀ bytes e, fileService.GetDecryptedLocalFile f w ≠ .returned (bytes, some e)) ∧
      (∀ decrypted, fileService.aesCipher.Decrypt blob = some decrypted →
        fileService.GetDecryptedLocalFile f w = .returned (decrypted, none)) ∧
      (fileService.aesCipher.Decrypt blob = none →
        fileService.GetDecryptedLocalFile f w = .panicked)) ∧
    (∀ e, ioutil.ReadFile w
        (fileService.configuration.FilesPath ++ fileService.string f.Id) = .error e →
      fileService.GetDecryptedLocalFile f w = .returned ([], some e)) ∧
    (hasNUL (fileService.configuration.FilesPath ++ fileService.string f.Id) = false →
      w.disk (fileService.configuration.FilesPath ++ fileService.string f.Id) = none →
      fileService.GetDecryptedLocalFile f w =
        .returned ([], some (Error.PathError "open"
          (fileService.configuration.FilesPath ++ fileService.string f.Id)))) := by
  refine ⟨?_, ?_, ?_⟩
  · intro blob hb
    refine ⟨?_, ?_, ?_⟩
    · intro bytes e
      simp only [FileServiceImpl.GetDecryptedLocalFile, hb]
      cases fileService.aesCipher.Decrypt blob <;> simp
    · intro decrypted hd
      simp [FileServiceImpl.GetDecryptedLocalFile, hb, hd]
    · intro hd
      simp [FileServiceImpl.GetDecryptedLocalFile, hb, hd]
  · intro e he
    simp [FileServiceImpl.GetDecryptedLocalFile, he]
  · intro hn hb
    simp [FileServiceImpl.GetDecryptedLocalFile, ioutil.ReadFile, hn, hb]

/-- Witness of C7 as amended: on the sample disk the record with identifier 65 has a
blob of three bytes, on which the sample `Decrypt` fails and the unchecked one returns no
bytes; the record with identifier 66 has no blob. -/
theorem getDecryptedLocalFile_errors_witness :
    sampleFileService.GetDecryptedLocalFile ⟨65, "a.txt"⟩ sampleFsWorld = .panicked ∧
    uncheckedFileService.GetDecryptedLocalFile ⟨65, "a.txt"⟩ sampleFsWorld =
      .returned ([], none) ∧
    sampleFileService.GetDecryptedLocalFile ⟨66, "b.txt"⟩ sampleFsWorld =
      .returned ([], some (Error.PathError "open" "files/B")) :=
  ⟨((getDecryptedLocalFile_errors sampleFileService ⟨65, "a.txt"⟩ sampleFsWorld).1
      [toByte 1, toByte 2, toByte 3] (by decide)).2.2 (by decide),
   ((getDecryptedLocalFile_errors uncheckedFileService ⟨65, "a.txt"⟩ sampleFsWorld).1
      [toByte 1, toByte 2, toByte 3] (by decide)).2.1 [] (by decide),
   (getDecryptedLocalFile_errors sampleFileService ⟨66, "b.txt"⟩ sampleFsWorld).2.2
      (by decide) (by decide)⟩

/-- Counterexample to C7 as stated: the blob of the record with identifier 65 exists and
has three bytes, fewer than the nonce header.  With the `Decrypt` that fails on it, as the
specification of the cipher asks, `GetDecryptedLocalFile` panics; with a `Decrypt` that
does not check the length it returns bytes and a nil error.  In neither case does it
return a decoding error. -/
theorem getDecryptedLocalFile_short_blob_counterexample :
    sampleFsWorld.disk "files/A" = some [toByte 1, toByte 2, toByte 3] ∧
    [toByte 1, toByte 2, toByte 3].length < nonceSize ∧
    sampleFileService.GetDecryptedLocalFile ⟨65, "a.txt"⟩ sampleFsWorld = .panicked ∧
    uncheckedFileService.GetDecryptedLocalFile ⟨65, "a.txt"⟩ sampleFsWorld =
      .returned ([], none) := by
  decide

/-- Claim C8. Delete ordering: `DeleteFile` first calls `fileDao.Delete`; if that fails it
returns that same error, the disk is unchanged and no removal is requested; only if it
succeeds is the blob at `FilesPath + fileID` removed, every other file staying, and
`DeleteFile` then returns the result of that removal, which is nil exactly when the blob
existed; so `DeleteFile` returns nil exactly when both deletes succeeded. -/
theorem deleteFile_ordering {σ ι : Type} (fileService : FileServiceImpl σ ι)
    (file : Int) (fileID : String) (w : FsWorld σ) :
    (∀ e, (fileService.fileDao.Delete file w.state).1 = some e →
      fileService.DeleteFile file fileID w =
        (some e, { w with state := (fileService.fileDao.Delete file w.state).2 })) ∧
    ((fileService.fileDao.Delete file w.state).1 = none →
      fileService.DeleteFile file fileID w =
          os.Remove { w with state := (fileService.fileDao.Delete file w.state).2 }
            (fileService.configuration.FilesPath ++ fileID) ∧
      (fileService.DeleteFile file fileID w).2.disk
          (fileService.configuration.FilesPath ++ fileID) = none ∧
      (∀ p, p ≠ fileService.configuration.FilesPath ++ fileID →
        (fileService.DeleteFile file fileID w).2.disk p = w.disk p) ∧
      (fileService.DeleteFile file fileID w).2.requests =
        w.requests ++ [.Remove (fileService.configuration.FilesPath ++ fileID)]) ∧
    ((fileService.DeleteFile file fileID w).1 = none ↔
      ((fileService.fileDao.Delete file w.state).1 = none ∧
        (w.disk (fileService.configuration.FilesPath ++ fileID)).isSome = true)) := by
  refine ⟨?_, ?_, ?_⟩
  · intro e he
    simp [FileServiceImpl.DeleteFile, he]
  · intro hn
    simp only [FileServiceImpl.DeleteFile, hn, os.Remove]
    cases hdisk : w.disk (fileService.configuration.FilesPath ++ fileID) with
    | none =>
      refine ⟨rfl, hdisk, fun p _ => rfl, rfl⟩
    | some blob =>
      refine ⟨rfl, by simp [Disk.erase], fun p hp => by simp [Disk.erase, hp], rfl⟩
  · cases hr : (fileService.fileDao.Delete file w.state).1 with
    | some e => simp [FileServiceImpl.DeleteFile, hr]
    | none =>
      cases hdisk : w.disk (fileService.configuration.FilesPath ++ fileID) with
      | none => simp [FileServiceImpl.DeleteFile, hr, os.Remove, hdisk]
      | some blob => simp [FileServiceImpl.DeleteFile, hr, os.Remove, hdisk]

/-- Witness of C8: on the sample service, whose DAO refuses the metadata identifier -1
and accepts 7, deleting (-1, A) fails with the DAO's error and leaves the blob and the
request log alone; deleting (7, A) removes the blob and returns nil. -/
theorem deleteFile_ordering_witness :
    (sampleFileService.DeleteFile (-1) "A" sampleFsWorld).1 = some (Error.External 2) ∧
    (sampleFileService.DeleteFile (-1) "A" sampleFsWorld).2.disk "files/A" =
      some [toByte 1, toByte 2, toByte 3] ∧
    (sampleFileService.DeleteFile (-1) "A" sampleFsWorld).2.requests = [] ∧
    (sampleFileService.DeleteFile 7 "A" sampleFsWorld).1 = none ∧
    (sampleFileService.DeleteFile 7 "A" sampleFsWorld).2.disk "files/A" = none := by
  have h1 := (deleteFile_ordering sampleFileService (-1) "A" sampleFsWorld).1
    (Error.External 2) (by decide)
  have h2 := (deleteFile_ordering sampleFileService 7 "A" sampleFsWorld).2.1 (by decide)
  have h3 := (deleteFile_ordering sampleFileService 7 "A" sampleFsWorld).2.2
  refine ⟨by rw [h1], by rw [h1]; decide, by rw [h1]; rfl, h3.mpr ⟨by decide, by decide⟩,
    h2.2.1⟩

/-- Claim C9, evaluated at the failing input. The validator accepts a username of 41 characters: the
username pattern lets each of its up to twenty repetitions take an underscore and a
letter, so an accepted username can be longer than 21 characters. -/
theorem validateCredentials_accepts_long_username :
    validateCredentials ⟨longUsername, sampleCredentials.Password⟩ = none ∧
    longUsername.length = 41 ∧
    regexp.MatchString usernameRegex longUsername = true :=
  ⟨validateCredentials_encoded _ _ (by decide) sampleHexText_isSha512Hex, by decide,
    by decide⟩

/-- Claim C10, evaluated at the failing input. On the sample service, whose files path
is `files/`, the one request `createDirIfNotExist` makes is the recursive creation
`os.MkdirAll` of that path with the mode `userReadablePerms`, which is 0600 and not 0700:
it grants the owner read and write but not execute, and nothing to group or others. -/
theorem createDirIfNotExist_requests_mode_0600 :
    (sampleFileService.createDirIfNotExist sampleFsWorld).2.requests =
      [.MkdirAll "files/" userReadablePerms] ∧
    userReadablePerms = 0o600 ∧ userReadablePerms ≠ 0o700 ∧
    canRead (ownerBits userReadablePerms) = true ∧
    canWrite (ownerBits userReadablePerms) = true ∧
    canExecute (ownerBits userReadablePerms) = false ∧
    groupBits userReadablePerms = 0 ∧ otherBits userReadablePerms = 0 := by
  decide

/-! ## Further properties -/

/-- The mode of the directory request, for every service and world: `createDirIfNotExist`
requests `os.MkdirAll` of the configured files path with the mode `userReadablePerms`,
whether or not the creation succeeds, and that mode lacks the owner's execute bit. -/
theorem createDirIfNotExist_mode {σ ι : Type} (fileService : FileServiceImpl σ ι)
    (w : FsWorld σ) :
    (fileService.createDirIfNotExist w).2.requests =
      w.requests ++ [.MkdirAll fileService.configuration.FilesPath userReadablePerms] ∧
    canExecute (ownerBits userReadablePerms) = false := by
  refine ⟨?_, by decide⟩
  simp only [FileServiceImpl.createDirIfNotExist]
  split <;> rfl

/-- Length of accepted usernames: every username `usernameRegex` matches has between 7
and 41 characters. -/
theorem usernameRegex_length_bounds (u : String)
    (h : regexp.MatchString usernameRegex u = true) : 7 ≤ u.length ∧ u.length ≤ 41 :=
  MatchString_usernameRegex_length u h

/-- The bounds on the length of accepted usernames, at the username `abcdefg1`. -/
theorem usernameRegex_length_bounds_witness :
    7 ≤ "abcdefg1".length ∧ "abcdefg1".length ≤ 41 :=
  usernameRegex_length_bounds "abcdefg1" (by decide)

/-- What `sha512Regex` matches: exactly the byte slices that are 128 hexadecimal
digits. -/
theorem sha512Regex_matches_exactly (d : List Byte) :
    regexp.Match sha512Regex d = true ↔ isSha512Hex d :=
  Match_sha512Regex d

/-- Round trip of `base64.URLEncoding`: decoding the encoding of any byte slice succeeds
and gives the slice back. -/
theorem base64_decode_encode (b : List Byte) :
    base64.DecodeString (base64.EncodeToString b) = .ok b :=
  base64.DecodeString_EncodeToString b

end Mantecabox
